import Mathlib

/-!
Verification of the Steam Deck refurbished-stock monitor.

Shallow embedding of `src/any_instock_us.py`, a single-run page monitor:
it normalizes page text, scans anchor/button nodes for "buy" phrases with a
topical context gate, fingerprints the page with a truncated SHA-256 of the
normalized text, and de-duplicates Discord notifications via a persisted hash.

Strings are modelled as `List Char`.  Python's whitespace class `\s` (and the
whitespace stripped by `str.strip`) is modelled by `pyIsSpace`, covering the
ASCII and Unicode whitespace code points Python recognizes.  `str.lower` is
modelled by `Char.toLower` (the texts the monitor handles are basic latin).
-/

set_option maxRecDepth 8192

/-- Code points Python treats as whitespace (`\s`, `str.strip`, `str.split`). -/
def wsNat (n : Nat) : Bool :=
  n = 32 || n = 9 || n = 10 || n = 13 || n = 11 || n = 12 ||
  n = 28 || n = 29 || n = 30 || n = 31 || n = 133 || n = 160 ||
  n = 5760 || (8192 ≤ n && n ≤ 8202) || n = 8232 || n = 8233 ||
  n = 8239 || n = 8287 || n = 12288

/-- True when `c` is a Python whitespace character. -/
def pyIsSpace (c : Char) : Bool := wsNat c.toNat

theorem toNat_ofNat_small (m : Nat) (h2 : m < 55296) : (Char.ofNat m).toNat = m := by
  have hv : m.isValidChar := Or.inl h2
  unfold Char.ofNat
  rw [dif_pos hv]
  simp [Char.ofNatAux, Char.toNat, UInt32.toNat]

theorem toLower_toLower (c : Char) : c.toLower.toLower = c.toLower := by
  unfold Char.toLower
  by_cases h : c.toNat ≥ 65 ∧ c.toNat ≤ 90
  · rw [if_pos h]
    rw [toNat_ofNat_small (c.toNat + 32) (by omega)]
    rw [if_neg (by omega)]
  · rw [if_neg h, if_neg h]

theorem wsNat_mid_false : ∀ n, n < 123 → 65 ≤ n → wsNat n = false := by decide

theorem pyIsSpace_toLower (c : Char) : pyIsSpace c.toLower = pyIsSpace c := by
  unfold Char.toLower pyIsSpace
  by_cases h : c.toNat ≥ 65 ∧ c.toNat ≤ 90
  · rw [if_pos h]
    rw [toNat_ofNat_small (c.toNat + 32) (by omega)]
    rw [wsNat_mid_false (c.toNat + 32) (by omega) (by omega),
        wsNat_mid_false c.toNat (by omega) (by omega)]
  · rw [if_neg h]

theorem pyIsSpace_space : pyIsSpace ' ' = true := by decide

/-- Model of `re.sub(r"\s+", " ", s)`: replace every maximal whitespace run by one space.
Processed from the right: a whitespace character merges with an already-emitted
leading space of the collapsed tail. -/
def collapseWS : List Char → List Char
  | [] => []
  | c :: cs =>
    let r := collapseWS cs
    if pyIsSpace c then (if r.head? = some ' ' then r else ' ' :: r) else c :: r

/-- Drop the trailing whitespace run (the right half of `str.strip`). -/
def rstripWS : List Char → List Char
  | [] => []
  | c :: cs =>
    let r := rstripWS cs
    if r.isEmpty then (if pyIsSpace c then [] else [c]) else c :: r

/-- Model of `str.strip()`: drop leading and trailing whitespace runs. -/
def pyStrip (l : List Char) : List Char := rstripWS (l.dropWhile pyIsSpace)

/-- The source function `norm`: `re.sub(r"\s+", " ", s or "").strip().lower()`. -/
def norm (s : List Char) : List Char := (pyStrip (collapseWS s)).map Char.toLower

/-- The function `norm` at the Python call boundary, where the argument may be `None`
(`s or ""` turns `None` into `""`). -/
def normOpt (s : Option (List Char)) : List Char := norm (s.getD [])

/-- The whitespace-separated words of a string (empty pieces dropped),
used to state what `norm` computes. -/
def splitWS : List Char → List (List Char)
  | [] => []
  | c :: cs =>
    if pyIsSpace c then splitWS cs
    else
      match cs.head?, splitWS cs with
      | some d, w :: rest => if pyIsSpace d then [c] :: (w :: rest) else (c :: w) :: rest
      | some _, [] => [[c]]
      | none, _ => [[c]]

/-- Model of `" ".join(ws)`: join pieces with single spaces. -/
def joinWords : List (List Char) → List Char
  | [] => []
  | [w] => w
  | w :: v :: ws => w ++ ' ' :: joinWords (v :: ws)

/-- The lower-cased whitespace-separated words of a string: the data `norm`
preserves.  Two strings differing only in whitespace run-lengths or letter
case have the same `wordsOf`. -/
def wordsOf (l : List Char) : List (List Char) := (splitWS l).map (List.map Char.toLower)

-- sanity checks on the pipeline (concrete evaluation)
example : norm "  Add   To\n\tCART  ".toList = "add to cart".toList := by decide
example : norm [] = [] := by decide
example : wordsOf "  Steam  DECK ".toList = ["steam".toList, "deck".toList] := by decide
example : joinWords (wordsOf " A  b ".toList) = "a b".toList := by decide

/-! ## Characterization of `norm`: it joins the lower-cased words with single spaces -/

/-- Predicate for a non-whitespace character, as used by `splitWS`. -/
def notWS (c : Char) : Bool := !(pyIsSpace c)

/-- Does the string start with a whitespace character? -/
def startsWS : List Char → Bool
  | [] => false
  | c :: _ => pyIsSpace c

theorem splitWS_cons_ws {c : Char} (h : pyIsSpace c = true) (cs : List Char) :
    splitWS (c :: cs) = splitWS cs := by
  simp [splitWS, h]

theorem splitWS_cons_nonws {c : Char} (h : pyIsSpace c = false) (cs : List Char) :
    splitWS (c :: cs) =
      (c :: cs.takeWhile notWS) :: splitWS (cs.dropWhile notWS) := by
  induction cs generalizing c with
  | nil => simp [splitWS, h]
  | cons d cs' ih =>
    by_cases hd : pyIsSpace d = true
    · have ht : notWS d = false := by simp [notWS, hd]
      have hsw : splitWS (d :: cs') = splitWS cs' := splitWS_cons_ws hd _
      rcases hs : splitWS cs' with _ | ⟨w, rest⟩ <;>
        simp [splitWS, h, hd, hs, List.takeWhile_cons, List.dropWhile_cons, ht]
    · have hd' : pyIsSpace d = false := by simpa using hd
      have ht : notWS d = true := by simp [notWS, hd']
      have hrec := ih hd'
      conv_lhs => rw [splitWS.eq_def]
      simp only [h, Bool.false_eq_true, if_false, List.head?_cons, hrec]
      simp [hd', List.takeWhile_cons_of_pos ht, List.dropWhile_cons_of_pos ht, hrec]

theorem splitWS_ne_nil_of_nonws {c : Char} (h : pyIsSpace c = false) (cs : List Char) :
    splitWS (c :: cs) ≠ [] := by
  rw [splitWS_cons_nonws h]
  simp

theorem splitWS_dropWhile (l : List Char) :
    splitWS (l.dropWhile pyIsSpace) = splitWS l := by
  induction l with
  | nil => rfl
  | cons c cs ih =>
    by_cases h : pyIsSpace c = true
    · rw [List.dropWhile_cons_of_pos h, ih, splitWS_cons_ws h]
    · rw [List.dropWhile_cons_of_neg h]

theorem mem_splitWS_aux :
    ∀ (n : Nat) (l : List Char), l.length ≤ n →
      ∀ w ∈ splitWS l, w ≠ [] ∧ ∀ c ∈ w, pyIsSpace c = false := by
  intro n
  induction n with
  | zero =>
    intro l hl w hw
    rcases l with _ | ⟨c, cs⟩
    · simp [splitWS] at hw
    · simp at hl
  | succ n ih =>
    intro l hl w hw
    rcases l with _ | ⟨c, cs⟩
    · simp [splitWS] at hw
    · by_cases h : pyIsSpace c = true
      · rw [splitWS_cons_ws h] at hw
        exact ih cs (by simp at hl; omega) w hw
      · have h' : pyIsSpace c = false := by simpa using h
        rw [splitWS_cons_nonws h', List.mem_cons] at hw
        rcases hw with hw | hw
        · subst hw
          refine ⟨by simp, ?_⟩
          intro x hx
          rw [List.mem_cons] at hx
          rcases hx with hx | hx
          · subst hx; exact h'
          · have := List.mem_takeWhile_imp hx
            simpa [notWS] using this
        · have hlen : (cs.dropWhile notWS).length ≤ n := by
            have h1 := (List.dropWhile_sublist (l := cs) notWS).length_le
            simp at hl
            omega
          exact ih _ hlen w hw

theorem mem_splitWS {l : List Char} {w : List Char} (hw : w ∈ splitWS l) :
    w ≠ [] ∧ ∀ c ∈ w, pyIsSpace c = false :=
  mem_splitWS_aux l.length l (Nat.le_refl _) w hw

theorem joinWords_cons_cons (w v : List Char) (ws : List (List Char)) :
    joinWords (w :: v :: ws) = w ++ ' ' :: joinWords (v :: ws) := rfl

theorem joinWords_head_cons (c : Char) (w : List Char) (ws : List (List Char)) :
    joinWords ((c :: w) :: ws) = c :: joinWords (w :: ws) := by
  cases ws with
  | nil => rfl
  | cons v t => simp [joinWords_cons_cons]

theorem joinWords_ne_nil {W : List (List Char)} (hW : W ≠ [])
    (hw : ∀ w ∈ W, w ≠ []) : joinWords W ≠ [] := by
  rcases W with _ | ⟨w, ws⟩
  · exact absurd rfl hW
  · rcases ws with _ | ⟨v, t⟩
    · exact hw w (by simp)
    · rw [joinWords_cons_cons]
      rcases hnil : w with _ | ⟨c, w'⟩
      · exact absurd hnil (hw w (by simp))
      · simp

theorem collapseWS_head (cs : List Char) :
    ((collapseWS cs).head? = some ' ') = (startsWS cs = true) := by
  rcases cs with _ | ⟨d, cs'⟩
  · simp [collapseWS, startsWS]
  · by_cases hd : pyIsSpace d = true
    · simp only [collapseWS, startsWS, hd]
      by_cases hh : (collapseWS cs').head? = some ' ' <;> simp [hh]
    · have hd' : pyIsSpace d = false := by simpa using hd
      simp only [collapseWS, startsWS, hd']
      simp only [Bool.false_eq_true, if_false, List.head?_cons]
      have : d ≠ ' ' := by
        intro hde
        rw [hde] at hd'
        exact Bool.noConfusion (pyIsSpace_space ▸ hd')
      simp [this, hd']

theorem dropWhile_collapseWS (l : List Char) :
    (collapseWS l).dropWhile pyIsSpace = collapseWS (l.dropWhile pyIsSpace) := by
  induction l with
  | nil => rfl
  | cons c cs ih =>
    by_cases h : pyIsSpace c = true
    · rw [List.dropWhile_cons_of_pos h]
      simp only [collapseWS, h, if_true]
      by_cases hh : (collapseWS cs).head? = some ' '
      · rw [if_pos hh, ih]
      · rw [if_neg hh, List.dropWhile_cons_of_pos pyIsSpace_space, ih]
    · rw [List.dropWhile_cons_of_neg h]
      simp only [collapseWS, h]
      simp only [Bool.false_eq_true, if_false]
      rw [List.dropWhile_cons_of_neg h]

theorem splitWS_eq_nil_iff (l : List Char) :
    splitWS l = [] ↔ ∀ c ∈ l, pyIsSpace c = true := by
  induction l with
  | nil => simp [splitWS]
  | cons c cs ih =>
    by_cases h : pyIsSpace c = true
    · rw [splitWS_cons_ws h]
      simp [h, ih]
    · have h' : pyIsSpace c = false := by simpa using h
      constructor
      · intro hc
        exact absurd hc (splitWS_ne_nil_of_nonws h' cs)
      · intro hc
        have := hc c (by simp)
        rw [this] at h'
        exact Bool.noConfusion h'

theorem takeWhile_notWS_of_ws {cs : List Char} (h : startsWS cs = true ∨ cs = []) :
    cs.takeWhile notWS = [] := by
  rcases cs with _ | ⟨d, cs'⟩
  · rfl
  · rcases h with h | h
    · have : notWS d = false := by simp [notWS, startsWS] at *; exact h
      simp [List.takeWhile_cons, this]
    · exact absurd h (by simp)

theorem dropWhile_notWS_of_ws {cs : List Char} (h : startsWS cs = true ∨ cs = []) :
    cs.dropWhile notWS = cs := by
  rcases cs with _ | ⟨d, cs'⟩
  · rfl
  · rcases h with h | h
    · have : notWS d = false := by simp [notWS, startsWS] at *; exact h
      simp [List.dropWhile_cons, this]
    · exact absurd h (by simp)

theorem splitWS_eq_take_drop {cs : List Char} (hne : cs ≠ []) (hs : startsWS cs = false) :
    splitWS cs = (cs.takeWhile notWS) :: splitWS (cs.dropWhile notWS) := by
  rcases cs with _ | ⟨d, cs'⟩
  · exact absurd rfl hne
  · have hd : pyIsSpace d = false := hs
    rw [splitWS_cons_nonws hd]
    have ht : notWS d = true := by simp [notWS, hd]
    rw [List.takeWhile_cons_of_pos ht, List.dropWhile_cons_of_pos ht]

/-- Right-strip of the collapsed string: the words joined by single spaces,
with one leading space when the original string starts with whitespace and
has at least one word. -/
theorem rstripWS_collapseWS (l : List Char) :
    rstripWS (collapseWS l) =
      if startsWS l && !(splitWS l).isEmpty
      then ' ' :: joinWords (splitWS l) else joinWords (splitWS l) := by
  induction l with
  | nil => simp [collapseWS, rstripWS, splitWS, startsWS, joinWords]
  | cons c cs ih =>
    have hjoin_ne : splitWS cs ≠ [] → joinWords (splitWS cs) ≠ [] := by
      intro hne
      exact joinWords_ne_nil hne (fun w hw => (mem_splitWS hw).1)
    by_cases h : pyIsSpace c = true
    · have hs : startsWS (c :: cs) = true := h
      have hsplit : splitWS (c :: cs) = splitWS cs := splitWS_cons_ws h cs
      simp only [collapseWS, h, if_true, hs, hsplit]
      by_cases hh : (collapseWS cs).head? = some ' '
      · have hstart : startsWS cs = true := by
          rw [← collapseWS_head]; exact hh
        rw [if_pos hh, ih, hstart]
      · have hstart : startsWS cs = false := by
          rcases hb : startsWS cs
          · rfl
          · rw [← collapseWS_head cs] at hb
            exact absurd hb hh
        rw [if_neg hh]
        simp only [rstripWS]
        rw [ih, hstart]
        simp only [Bool.false_and, Bool.false_eq_true, if_false]
        rcases hsp : splitWS cs with _ | ⟨w, rest⟩
        · simp [joinWords, pyIsSpace_space]
        · have hne : joinWords (w :: rest) ≠ [] := by
            rw [← hsp]
            exact hjoin_ne (by rw [hsp]; simp)
          rcases hJ : joinWords (w :: rest) with _ | ⟨j, js⟩
          · exact absurd hJ hne
          · simp
    · have h' : pyIsSpace c = false := by simpa using h
      have hs : startsWS (c :: cs) = false := h'
      simp only [collapseWS]
      simp only [h', Bool.false_eq_true, if_false, hs, Bool.false_and]
      simp only [rstripWS]
      rw [ih]
      rcases hsp : splitWS cs with _ | ⟨w, rest⟩
      · -- cs is all whitespace: the collapsed tail right-strips to nothing
        have hws : ∀ x ∈ cs, pyIsSpace x = true := (splitWS_eq_nil_iff cs).mp hsp
        have hcase : startsWS cs = true ∨ cs = [] := by
          rcases cs with _ | ⟨d, cs'⟩
          · right; rfl
          · left; exact hws d (by simp)
        have hsplit : splitWS (c :: cs) = [[c]] := by
          rw [splitWS_cons_nonws h', takeWhile_notWS_of_ws hcase,
            dropWhile_notWS_of_ws hcase, hsp]
        rw [hsplit]
        simp [joinWords, h']
      · have hne : joinWords (w :: rest) ≠ [] := by
          have := hjoin_ne (by rw [hsp]; simp)
          rw [hsp] at this
          exact this
        have hw_ne : w ≠ [] := (mem_splitWS (by rw [hsp]; simp : w ∈ splitWS cs)).1
        have hcs_ne : cs ≠ [] := by
          intro hc
          rw [hc] at hsp
          simp [splitWS] at hsp
        rcases hst : startsWS cs
        · -- tail starts with a word: strip keeps no leading space
          have hjc : splitWS (c :: cs) = (c :: cs.takeWhile notWS) :: splitWS (cs.dropWhile notWS) :=
            splitWS_cons_nonws h' cs
          have hjc2 : joinWords (splitWS (c :: cs)) = c :: joinWords (splitWS cs) := by
            rw [hjc, joinWords_head_cons, ← splitWS_eq_take_drop hcs_ne hst]
          rw [hst] at *
          simp only [Bool.false_and, Bool.false_eq_true, if_false]
          rw [hjc2, hsp]
          rcases hJ : joinWords (w :: rest) with _ | ⟨j, js⟩
          · exact absurd hJ hne
          · simp
        · -- tail starts with whitespace: collapsed tail begins with one space
          have hsplit : splitWS (c :: cs) = [c] :: w :: rest := by
            rw [splitWS_cons_nonws h', takeWhile_notWS_of_ws (Or.inl hst),
              dropWhile_notWS_of_ws (Or.inl hst), hsp]
          rw [hst] at *
          rw [hsplit]
          simp only [List.isEmpty_cons, Bool.not_false, Bool.and_true, Bool.true_and,
            if_true]
          simp [joinWords_cons_cons]

theorem pyStrip_collapseWS (l : List Char) :
    pyStrip (collapseWS l) = joinWords (splitWS l) := by
  unfold pyStrip
  rw [dropWhile_collapseWS, rstripWS_collapseWS]
  have hstart : startsWS (l.dropWhile pyIsSpace) = false := by
    rcases hd : l.dropWhile pyIsSpace with _ | ⟨c, cs⟩
    · rfl
    · have := List.head?_dropWhile_not pyIsSpace l
      rw [hd] at this
      simp at this
      exact (by simpa using this : pyIsSpace c = false)
  rw [hstart, splitWS_dropWhile]
  simp

theorem map_toLower_joinWords (W : List (List Char)) :
    (joinWords W).map Char.toLower = joinWords (W.map (List.map Char.toLower)) := by
  induction W with
  | nil => rfl
  | cons w ws ih =>
    rcases ws with _ | ⟨v, t⟩
    · rfl
    · rw [joinWords_cons_cons]
      simp only [List.map_append, List.map_cons]
      rw [ih]
      have hsp : Char.toLower ' ' = ' ' := by decide
      rw [hsp]
      rfl

/-- What `norm` computes: the lower-cased whitespace-separated words of the
input, joined by single spaces. -/
theorem norm_eq_joinWords (l : List Char) : norm l = joinWords (wordsOf l) := by
  show (pyStrip (collapseWS l)).map Char.toLower =
    joinWords ((splitWS l).map (List.map Char.toLower))
  rw [pyStrip_collapseWS, map_toLower_joinWords]

theorem wordsOf_props {l : List Char} {w : List Char} (hw : w ∈ wordsOf l) :
    w ≠ [] ∧ (∀ c ∈ w, pyIsSpace c = false) ∧ w.map Char.toLower = w := by
  unfold wordsOf at hw
  rw [List.mem_map] at hw
  obtain ⟨u, hu, rfl⟩ := hw
  obtain ⟨hu_ne, hu_ws⟩ := mem_splitWS hu
  refine ⟨by simpa using hu_ne, ?_, ?_⟩
  · intro c hc
    rw [List.mem_map] at hc
    obtain ⟨c', hc', rfl⟩ := hc
    rw [pyIsSpace_toLower]
    exact hu_ws c' hc'
  · rw [List.map_map]
    apply List.map_congr_left
    intro c _
    exact toLower_toLower c

theorem takeWhile_all_notWS {w : List Char} (hw : ∀ c ∈ w, pyIsSpace c = false)
    (r : List Char) : (w ++ r).takeWhile notWS = w ++ r.takeWhile notWS := by
  apply List.takeWhile_append_of_pos
  intro c hc
  simp [notWS, hw c hc]

theorem dropWhile_all_notWS {w : List Char} (hw : ∀ c ∈ w, pyIsSpace c = false)
    (r : List Char) : (w ++ r).dropWhile notWS = r.dropWhile notWS := by
  apply List.dropWhile_append_of_pos
  intro c hc
  simp [notWS, hw c hc]

theorem splitWS_single_word {w : List Char} (hne : w ≠ [])
    (hws : ∀ c ∈ w, pyIsSpace c = false) : splitWS w = [w] := by
  rcases w with _ | ⟨c, t⟩
  · exact absurd rfl hne
  · rw [splitWS_cons_nonws (hws c (by simp))]
    have ht : ∀ c ∈ t, pyIsSpace c = false := fun x hx => hws x (by simp [hx])
    have h1 : t.takeWhile notWS = t := by
      have := takeWhile_all_notWS ht ([] : List Char)
      simpa using this
    have h2 : t.dropWhile notWS = [] := by
      have := dropWhile_all_notWS ht ([] : List Char)
      simpa using this
    rw [h1, h2]
    rfl

/-- Splitting the single-space join of nonempty whitespace-free words returns
exactly those words. -/
theorem splitWS_joinWords {W : List (List Char)}
    (hW : ∀ w ∈ W, w ≠ [] ∧ ∀ c ∈ w, pyIsSpace c = false) :
    splitWS (joinWords W) = W := by
  induction W with
  | nil => rfl
  | cons w ws ih =>
    rcases ws with _ | ⟨v, t⟩
    · exact splitWS_single_word (hW w (by simp)).1 (hW w (by simp)).2
    · rw [joinWords_cons_cons]
      obtain ⟨hw_ne, hw_ws⟩ := hW w (by simp)
      rcases hw : w with _ | ⟨c, u⟩
      · exact absurd hw hw_ne
      · subst hw
        rw [List.cons_append, splitWS_cons_nonws (hw_ws c (by simp))]
        have hu_ws : ∀ x ∈ u, pyIsSpace x = false := fun x hx => hw_ws x (by simp [hx])
        rw [takeWhile_all_notWS hu_ws, dropWhile_all_notWS hu_ws]
        have hsp : notWS ' ' = false := by simp [notWS, pyIsSpace_space]
        rw [List.takeWhile_cons_of_neg (by simp [hsp]), List.dropWhile_cons_of_neg (by simp [hsp])]
        rw [splitWS_cons_ws pyIsSpace_space]
        rw [ih (fun x hx => hW x (by simp [hx]))]
        simp

/-- Normalization is idempotent. -/
theorem norm_idem (l : List Char) : norm (norm l) = norm l := by
  have hW : ∀ w ∈ wordsOf l, w ≠ [] ∧ ∀ c ∈ w, pyIsSpace c = false :=
    fun w hw => ⟨(wordsOf_props hw).1, (wordsOf_props hw).2.1⟩
  have h1 : wordsOf (joinWords (wordsOf l)) = wordsOf l := by
    have h2 : splitWS (joinWords (wordsOf l)) = wordsOf l := splitWS_joinWords hW
    show (splitWS (joinWords (wordsOf l))).map (List.map Char.toLower) = wordsOf l
    rw [h2]
    conv_rhs => rw [show wordsOf l = (wordsOf l).map id from (List.map_id _).symm]
    apply List.map_congr_left
    intro w hw
    exact (wordsOf_props hw).2.2
  rw [norm_eq_joinWords l, norm_eq_joinWords (joinWords (wordsOf l)), h1]

theorem mem_joinWords {c : Char} {W : List (List Char)} (hc : c ∈ joinWords W) :
    c = ' ' ∨ ∃ w ∈ W, c ∈ w := by
  induction W with
  | nil => simp [joinWords] at hc
  | cons w ws ih =>
    rcases ws with _ | ⟨v, t⟩
    · exact Or.inr ⟨w, by simp, hc⟩
    · rw [joinWords_cons_cons, List.mem_append, List.mem_cons] at hc
      rcases hc with hc | hc | hc
      · exact Or.inr ⟨w, by simp, hc⟩
      · exact Or.inl hc
      · rcases ih hc with hc | ⟨u, hu, hcu⟩
        · exact Or.inl hc
        · exact Or.inr ⟨u, by simp [hu], hcu⟩

/-- Every whitespace character surviving in `norm`'s output is a plain space. -/
theorem norm_ws_only_space {l : List Char} {c : Char} (hc : c ∈ norm l)
    (hws : pyIsSpace c = true) : c = ' ' := by
  rw [norm_eq_joinWords] at hc
  rcases mem_joinWords hc with h | ⟨w, hw, hcw⟩
  · exact h
  · have := (wordsOf_props hw).2.1 c hcw
    rw [hws] at this
    exact Bool.noConfusion this

/-- Every character of `norm`'s output is lower-cased. -/
theorem norm_lower {l : List Char} {c : Char} (hc : c ∈ norm l) :
    c.toLower = c := by
  rw [norm_eq_joinWords] at hc
  rcases mem_joinWords hc with h | ⟨w, hw, hcw⟩
  · subst h; decide
  · have hfix := (wordsOf_props hw).2.2
    have hcw2 : c ∈ w.map Char.toLower := by rw [hfix]; exact hcw
    rw [List.mem_map] at hcw2
    obtain ⟨c', _, rfl⟩ := hcw2
    exact toLower_toLower c'

/-- The output of `norm` never starts with a space: leading whitespace is trimmed. -/
theorem norm_head_not_space (l : List Char) : (norm l).head? ≠ some ' ' := by
  rw [norm_eq_joinWords]
  rcases hW : wordsOf l with _ | ⟨w, ws⟩
  · simp [joinWords]
  · have hw := wordsOf_props (by rw [hW]; simp : w ∈ wordsOf l)
    rcases hwe : w with _ | ⟨c, u⟩
    · exact absurd hwe hw.1
    · have hc : pyIsSpace c = false := hw.2.1 c (by rw [hwe]; simp)
      have hcs : c ≠ ' ' := by
        intro he
        rw [he, pyIsSpace_space] at hc
        exact Bool.noConfusion hc
      rw [joinWords_head_cons]
      simp [hcs]

/-- The output of `norm` never ends with a space: trailing whitespace is trimmed. -/
theorem norm_getLast_not_space (l : List Char) : (norm l).getLast? ≠ some ' ' := by
  rw [norm_eq_joinWords]
  have hall : ∀ w ∈ wordsOf l, w ≠ [] ∧ ∀ c ∈ w, pyIsSpace c = false :=
    fun w hw => ⟨(wordsOf_props hw).1, (wordsOf_props hw).2.1⟩
  revert hall
  generalize wordsOf l = W
  intro hall
  induction W with
  | nil => simp [joinWords]
  | cons w ws ih =>
    rcases ws with _ | ⟨v, t⟩
    · show w.getLast? ≠ some ' '
      obtain ⟨hne, hws⟩ := hall w (by simp)
      intro hc
      have : ' ' ∈ w := List.mem_of_getLast?_eq_some hc
      have := hws ' ' this
      rw [pyIsSpace_space] at this
      exact Bool.noConfusion this
    · rw [joinWords_cons_cons]
      have hne2 : joinWords (v :: t) ≠ [] :=
        joinWords_ne_nil (by simp) (fun x hx => (hall x (by simp [hx])).1)
      have ih2 := ih (fun x hx => hall x (by simp at hx; simp [hx]))
      rcases hJ : joinWords (v :: t) with _ | ⟨j, js⟩
      · exact absurd hJ hne2
      · rw [hJ] at ih2
        intro hc
        rw [List.getLast?_append, List.getLast?_cons_cons] at hc
        rcases hg : (j :: js).getLast? with _ | g
        · rw [List.getLast?_eq_none_iff] at hg
          exact List.noConfusion hg
        · rw [hg, Option.or_some] at hc
          exact ih2 (hc ▸ hg)

/-! ## Regex model

The source's phrase patterns use only literals, `\s*` (optional whitespace
run) and `\b` (word boundary), compiled with `re.I`.  `matchRun` is a
backtracking matcher over that fragment; the fuel argument strictly exceeds
the recursion depth (every call shrinks `tokens.length + s.length`), so it
never runs out on the initial fuel supplied by `matchHere`. -/

/-- One token of a compiled pattern: a literal, `\s*`, `\b`, or the
spec-level "optional whitespace or hyphen" separator used by wide phrases. -/
inductive RTok
  | lit (w : List Char)
  | wsStar
  | wb
  | sepOpt
deriving DecidableEq

/-- Python `\w` (for the ASCII texts the monitor handles). -/
def isWordChar (c : Char) : Bool := c.isAlphanum || c = '_'

/-- Word boundary `\b`: holds between `prev` and the head of `s` when exactly one side is a
word character (absent sides count as non-word). -/
def wordBoundary (prev : Option Char) (s : List Char) : Bool :=
  let pw := match prev with | some c => isWordChar c | none => false
  let nw := match s.head? with | some c => isWordChar c | none => false
  pw != nw

/-- Case-insensitive literal prefix test (`re.I`). -/
def ciPrefix : List Char → List Char → Bool
  | [], _ => true
  | _ :: _, [] => false
  | p :: ps, c :: cs => (p.toLower = c.toLower) && ciPrefix ps cs

/-- The last character of the text consumed by a literal, for `\b` tracking. -/
def newPrev (w s : List Char) (prev : Option Char) : Option Char :=
  match (s.take w.length).getLast? with
  | some c => some c
  | none => prev

/-- Match a token list against a prefix of `s`; `prev` is the character just
before `s` (for `\b`). -/
def matchRun : Nat → List RTok → Option Char → List Char → Bool
  | 0, _, _, _ => false
  | _ + 1, [], _, _ => true
  | fuel + 1, .wb :: ts, prev, s => wordBoundary prev s && matchRun fuel ts prev s
  | fuel + 1, .wsStar :: ts, prev, s =>
    matchRun fuel ts prev s ||
      (match s with
       | c :: rest => pyIsSpace c && matchRun fuel (.wsStar :: ts) (some c) rest
       | [] => false)
  | fuel + 1, .sepOpt :: ts, prev, s =>
    matchRun fuel ts prev s ||
      (match s with
       | c :: rest => (pyIsSpace c || c = '-') && matchRun fuel (.sepOpt :: ts) (some c) rest
       | [] => false)
  | fuel + 1, .lit w :: ts, prev, s =>
    ciPrefix w s && matchRun fuel ts (newPrev w s prev) (s.drop w.length)

/-- Match the pattern at the start of `s` (with `prev` the preceding char). -/
def matchHere (toks : List RTok) (prev : Option Char) (s : List Char) : Bool :=
  matchRun (toks.length + s.length + 1) toks prev s

/-- Model of `re.search`: try the pattern at every position of `s`. -/
def searchFrom : List RTok → Option Char → List Char → Bool
  | toks, prev, [] => matchHere toks prev []
  | toks, prev, c :: rest => matchHere toks prev (c :: rest) || searchFrom toks (some c) rest

/-- Model of `re.search(p, s, flags=re.I)` as a Boolean. -/
def reSearch (toks : List RTok) (s : List Char) : Bool := searchFrom toks none s

/-- Pattern `\badd\s*to\s*cart\b`. -/
def patAddToCart : List RTok :=
  [.wb, .lit "add".toList, .wsStar, .lit "to".toList, .wsStar, .lit "cart".toList, .wb]

/-- Pattern `\bbuy\s*now\b`. -/
def patBuyNow : List RTok := [.wb, .lit "buy".toList, .wsStar, .lit "now".toList, .wb]

/-- Pattern `\bin\s*stock\b`. -/
def patInStock : List RTok := [.wb, .lit "in".toList, .wsStar, .lit "stock".toList, .wb]

/-- Pattern `\bout\s*of\s*stock\b`. -/
def patOutOfStock : List RTok :=
  [.wb, .lit "out".toList, .wsStar, .lit "of".toList, .wsStar, .lit "stock".toList, .wb]

/-- Pattern `\bunavailable\b`. -/
def patUnavailable : List RTok := [.wb, .lit "unavailable".toList, .wb]

/-- Pattern `\bsold\s*out\b`. -/
def patSoldOut : List RTok := [.wb, .lit "sold".toList, .wsStar, .lit "out".toList, .wb]

/-- Pattern `\bnotify\s*me\b`. -/
def patNotifyMe : List RTok := [.wb, .lit "notify".toList, .wsStar, .lit "me".toList, .wb]

/-- The source list `POSITIVE_STRICT`: strong, low-noise buy signals only. -/
def POSITIVE_STRICT : List (List RTok) := [patAddToCart, patBuyNow, patInStock]

/-- The source list `NEGATIVE_HINTS`. -/
def NEGATIVE_HINTS : List (List RTok) :=
  [patOutOfStock, patUnavailable, patSoldOut, patNotifyMe]

-- matcher sanity checks against the Python regexes
example : reSearch patAddToCart "please add  to cart now".toList = true := by decide
example : reSearch patAddToCart "addtocart".toList = true := by decide
example : reSearch patAddToCart "badd to cart".toList = false := by decide
example : reSearch patInStock "In Stock".toList = true := by decide
example : reSearch patInStock "instockx".toList = false := by decide
example : reSearch patSoldOut "SOLD   OUT".toList = true := by decide
example : reSearch patNotifyMe "notify me when available".toList = true := by decide

/-! ## Candidate nodes and the strict classifier -/

/-- A candidate `<a>`/`<button>` element, as `has_positive_in_context` sees it:
its own rendered text (`node.get_text(" ", strip=True)`), the two recognized
accessibility attributes (`node.get("aria-label")`, `node.get("title")`;
`none` = attribute absent), and the rendered texts of its parent chain in
order (`none` = `get_text` raised for that ancestor, which the walk catches
and skips). -/
structure Node where
  ownText : List Char
  ariaLabel : Option (List Char)
  title : Option (List Char)
  ancestorTexts : List (Option (List Char))
deriving DecidableEq

/-- The `texts` list built at the top of `has_positive_in_context`: the
normalized own text plus each truthy attribute value, normalized.
(`if v:` skips both absent and empty attributes.) -/
def nodeTexts (n : Node) : List (List Char) :=
  [norm n.ownText] ++
    (match n.ariaLabel with
     | some v => if v = [] then [] else [norm v]
     | none => []) ++
    (match n.title with
     | some v => if v = [] then [] else [norm v]
     | none => [])

/-- The source variable `combined`, i.e. `" ".join(texts)`. -/
def combined (n : Node) : List Char := joinWords (nodeTexts n)

/-- The `while parent is not None and steps < 4` context walk: collect the
`get_text` of up to `steps` chain members, skipping members whose extraction
raises (the `try/except` in the loop). -/
def ctxWalk : List (Option (List Char)) → Nat → List (List Char)
  | _, 0 => []
  | [], _ => []
  | t :: rest, n + 1 =>
    match t with
    | some txt => txt :: ctxWalk rest n
    | none => ctxWalk rest n

/-- The source variable `ctx_chunks` for a node: the walk starts at the node itself (whose
`get_text` already succeeded on line 54 of the source) and climbs parents. -/
def ctxChunks (n : Node) : List (List Char) :=
  ctxWalk (some n.ownText :: n.ancestorTexts) 4

/-- The source variable `ctx`, i.e. `" ".join(ctx_chunks)`. -/
def ctx (n : Node) : List Char := joinWords (ctxChunks n)

/-- Python `in`: substring containment. -/
def containsSub (p : List Char) : List Char → Bool
  | [] => p.isEmpty
  | c :: cs => p.isPrefixOf (c :: cs) || containsSub p cs

/-- The source function `context_looks_like_refurb`. -/
def context_looks_like_refurb (text : List Char) : Bool :=
  let t := norm text
  containsSub "steam deck".toList t &&
    (containsSub "refurb".toList t || containsSub "certified refurbished".toList t ||
      containsSub "refurbished".toList t)

/-- The source function `has_positive_in_context`: positive phrase required on the
node's own+attribute text, negative phrase vetoes on that same text, then the
ancestor context must look like a Steam Deck refurb card. -/
def has_positive_in_context (n : Node) : Bool :=
  let comb := combined n
  if !(POSITIVE_STRICT.any fun p => reSearch p comb) then false
  else if NEGATIVE_HINTS.any fun p => reSearch p comb then false
  else context_looks_like_refurb (ctx n)

/-- The source function `detect_in_stock`: scan the page's anchor/button nodes, short-circuiting
on the first qualifying one. -/
def detect_in_stock (nodes : List Node) : Bool := nodes.any has_positive_in_context

-- classifier sanity checks
example :
    has_positive_in_context
      { ownText := "Add to Cart".toList, ariaLabel := none, title := none,
        ancestorTexts := [some "Steam Deck 512GB Certified Refurbished".toList] } = true := by
  decide

example :
    has_positive_in_context
      { ownText := "Add to Cart".toList, ariaLabel := none, title := none,
        ancestorTexts := [] } = false := by
  decide

example :
    has_positive_in_context
      { ownText := "Add to Cart — Sold Out".toList, ariaLabel := none, title := none,
        ancestorTexts := [some "Steam Deck Refurbished".toList] } = false := by
  decide

/-! ## Change fingerprinter: `hashlib.sha256(norm(text).encode("utf-8")).hexdigest()[:16]`

SHA-256 implemented over `Nat` with explicit reduction mod `2^32`. -/

/-- Truncate to a 32-bit word. -/
def m32 (x : Nat) : Nat := x % 4294967296

/-- Right-rotate a 32-bit word by `n`. -/
def rotr (n x : Nat) : Nat := m32 ((x >>> n) ||| (x <<< (32 - n)))

/-- Bitwise complement within 32 bits. -/
def cmpl32 (x : Nat) : Nat := 4294967295 - m32 x

/-- UTF-8 encoding of one scalar value (Python `str.encode("utf-8")`). -/
def utf8Char (c : Char) : List Nat :=
  let n := c.toNat
  if n < 128 then [n]
  else if n < 2048 then [192 + n / 64, 128 + n % 64]
  else if n < 65536 then [224 + n / 4096, 128 + n / 64 % 64, 128 + n % 64]
  else [240 + n / 262144, 128 + n / 4096 % 64, 128 + n / 64 % 64, 128 + n % 64]

/-- UTF-8 encoding of a string as a byte list. -/
def utf8Encode (l : List Char) : List Nat := (l.map utf8Char).flatten

/-- SHA-256 round constants. -/
def K256 : List Nat :=
  [1116352408, 1899447441, 3049323471, 3921009573,
   961987163, 1508970993, 2453635748, 2870763221,
   3624381080, 310598401, 607225278, 1426881987,
   1925078388, 2162078206, 2614888103, 3248222580,
   3835390401, 4022224774, 264347078, 604807628,
   770255983, 1249150122, 1555081692, 1996064986,
   2554220882, 2821834349, 2952996808, 3210313671,
   3336571891, 3584528711, 113926993, 338241895,
   666307205, 773529912, 1294757372, 1396182291,
   1695183700, 1986661051, 2177026350, 2456956037,
   2730485921, 2820302411, 3259730800, 3345764771,
   3516065817, 3600352804, 4094571909, 275423344,
   430227734, 506948616, 659060556, 883997877,
   958139571, 1322822218, 1537002063, 1747873779,
   1955562222, 2024104815, 2227730452, 2361852424,
   2428436474, 2756734187, 3204031479, 3329325298]

/-- Message padding: `0x80`, zeros to 56 mod 64, then the bit length as
eight big-endian bytes. -/
def sha256Pad (msg : List Nat) : List Nat :=
  let bitLen := 8 * msg.length
  let zeros := (119 - msg.length % 64) % 64
  msg ++ [128] ++ List.replicate zeros 0 ++
    ((List.range 8).map fun i => bitLen / 256 ^ (7 - i) % 256)

/-- Split a list into `k`-sized chunks. -/
def chunksOf (k : Nat) (l : List Nat) : List (List Nat) :=
  (List.range ((l.length + k - 1) / k)).map fun i => (l.drop (i * k)).take k

/-- Big-endian 32-bit words of a 64-byte block. -/
def blockWords (block : List Nat) : List Nat :=
  (List.range 16).map fun i =>
    (block.getD (4 * i) 0) * 16777216 + (block.getD (4 * i + 1) 0) * 65536 +
      (block.getD (4 * i + 2) 0) * 256 + block.getD (4 * i + 3) 0

/-- Extend 16 words to the 64-word message schedule. -/
def msgSchedule (ws : List Nat) : List Nat :=
  (List.range 48).foldl
    (fun acc _ =>
      let n := acc.length
      let w15 := acc.getD (n - 15) 0
      let w2 := acc.getD (n - 2) 0
      let s0 := (rotr 7 w15) ^^^ (rotr 18 w15) ^^^ (w15 >>> 3)
      let s1 := (rotr 17 w2) ^^^ (rotr 19 w2) ^^^ (w2 >>> 10)
      acc ++ [m32 (acc.getD (n - 16) 0 + s0 + acc.getD (n - 7) 0 + s1)])
    ws

/-- The eight working variables of the compression loop. -/
structure Hash8 where
  a : Nat
  b : Nat
  c : Nat
  d : Nat
  e : Nat
  f : Nat
  g : Nat
  h : Nat

/-- Initial SHA-256 state. -/
def initH : Hash8 :=
  ⟨1779033703, 3144134277, 1013904242, 2773480762,
   1359893119, 2600822924, 528734635, 1541459225⟩

/-- One compression round. -/
def shaRound (st : Hash8) (kw : Nat × Nat) : Hash8 :=
  let S1 := (rotr 6 st.e) ^^^ (rotr 11 st.e) ^^^ (rotr 25 st.e)
  let ch := (st.e &&& st.f) ^^^ ((cmpl32 st.e) &&& st.g)
  let temp1 := m32 (st.h + S1 + ch + kw.1 + kw.2)
  let S0 := (rotr 2 st.a) ^^^ (rotr 13 st.a) ^^^ (rotr 22 st.a)
  let maj := (st.a &&& st.b) ^^^ (st.a &&& st.c) ^^^ (st.b &&& st.c)
  let temp2 := m32 (S0 + maj)
  ⟨m32 (temp1 + temp2), st.a, st.b, st.c, m32 (st.d + temp1), st.e, st.f, st.g⟩

/-- Compress one 64-byte block into the running state. -/
def shaCompress (st : Hash8) (block : List Nat) : Hash8 :=
  let w := msgSchedule (blockWords block)
  let f := (K256.zip w).foldl shaRound st
  ⟨m32 (st.a + f.a), m32 (st.b + f.b), m32 (st.c + f.c), m32 (st.d + f.d),
   m32 (st.e + f.e), m32 (st.f + f.f), m32 (st.g + f.g), m32 (st.h + f.h)⟩

/-- The eight 32-bit words of the SHA-256 digest of a byte string. -/
def sha256Words (msg : List Nat) : List Nat :=
  let fin := (chunksOf 64 (sha256Pad msg)).foldl shaCompress initH
  [fin.a, fin.b, fin.c, fin.d, fin.e, fin.f, fin.g, fin.h]

/-- One hex digit. -/
def hexDigit (n : Nat) : Char :=
  if n < 10 then Char.ofNat (48 + n) else Char.ofNat (87 + n)

/-- Eight hex characters of a 32-bit word, big-endian. -/
def wordHex (w : Nat) : List Char :=
  (List.range 8).map fun i => hexDigit (w / 16 ^ (7 - i) % 16)

/-- Model of `hexdigest()`: 64 lowercase hex characters. -/
def sha256Hex (msg : List Nat) : List Char := ((sha256Words msg).map wordHex).flatten

/-- The page fingerprint from line 129 of the source:
`hashlib.sha256(norm(text).encode("utf-8")).hexdigest()[:16]`. -/
def fingerprint (pageText : List Char) : List Char :=
  (sha256Hex (utf8Encode (norm pageText))).take 16

/-! ## The coordinator: `main` -/

/-- What the page parse yields: the whole-page text
(`soup.get_text(" ", strip=True)`) and the `a, button` candidate nodes. -/
structure PageData where
  fullText : List Char
  nodes : List Node

/-- Outcome of `requests.get(URL, ...)`: either the call raised
(connection error, timeout) or returned a response with a status code. -/
inductive FetchOutcome
  | raised
  | response (status : Nat) (page : PageData)

/-- Outcome of `requests.post(WEBHOOK, ...)` inside `post_discord`. -/
inductive DeliveryOutcome
  | delivered
  | httpStatus (code : Nat)
  | raised

/-- Model of `r.raise_for_status()`: raises `HTTPError` for 4xx/5xx status codes. -/
def raise_for_status (status : Nat) : Except (List Char) Unit :=
  if 400 ≤ status ∧ status < 600 then .error "HTTPError".toList else .ok ()

/-- The source function `post_discord`: the whole `requests.post` is wrapped in
`try/except`, and a non-2xx status only logs — every delivery outcome returns
normally (the returned value is the error text logged, if any). -/
def post_discord (d : DeliveryOutcome) : Except (List Char) (Option (List Char)) :=
  match d with
  | .delivered => .ok none
  | .httpStatus code =>
    if code ≥ 300 then .ok (some "Discord webhook error".toList) else .ok none
  | .raised => .ok (some "Failed to post to Discord".toList)

/-- Durable effect of one run. -/
structure MainResult where
  notified : Bool
  state : Option (List Char)
deriving DecidableEq

/-- The source function `main`, with its I/O boundaries as parameters: the
configured webhook, the persisted `last_hash` (absent on first run), the
fetch outcome and the delivery outcome.  `.error` models an uncaught
exception terminating the process; `.ok` carries whether a notification was
attempted and the state left on disk. -/
def mainRun (webhook : List Char) (last : Option (List Char))
    (f : FetchOutcome) (d : DeliveryOutcome) : Except (List Char) MainResult :=
  if webhook = [] then .ok ⟨false, last⟩
  else
    match f with
    | .raised => .error "requests.get raised".toList
    | .response status page =>
      match raise_for_status status with
      | .error e => .error e
      | .ok _ =>
        if detect_in_stock page.nodes then
          let page_hash := fingerprint page.fullText
          if some page_hash ≠ last then
            match post_discord d with
            | .error e => .error e
            | .ok _ => .ok ⟨true, some page_hash⟩
          else .ok ⟨false, last⟩
        else .ok ⟨false, last⟩

/-! ## The broad detection strategy (spec §4.4), absent from `src/` -/

/-- Modelled from the spec: the wide POSITIVE phrase set of the broad
strategy ("including generic terms like purchase, checkout, reserve,
pre-order", with optional hyphenation per §4.2).  The broad strategy's code
lives in another revision of the monitor and is not under `src/`. -/
def POSITIVE_WIDE : List (List RTok) :=
  POSITIVE_STRICT ++
    [[.wb, .lit "purchase".toList, .wb],
     [.wb, .lit "checkout".toList, .wb],
     [.wb, .lit "reserve".toList, .wb],
     [.wb, .lit "pre".toList, .sepOpt, .lit "order".toList, .wb]]

/-- Modelled from the spec (§4.2): `matches_any(text, phrase_set)` — true iff
the normalized text contains at least one phrase of the set. -/
def matches_any (text : List Char) (phrases : List (List RTok)) : Bool :=
  phrases.any fun p => reSearch p (norm text)

/-- Modelled from the spec (§4.4): the three text pools of the broad
strategy — whole-page text, concatenation of candidate own texts,
concatenation of candidate accessibility-attribute values. -/
def broadPools (page : List Char) (nodes : List Node) : List (List Char) :=
  [page,
   joinWords (nodes.map Node.ownText),
   joinWords ((nodes.map fun n => [n.ariaLabel, n.title]).flatten.filterMap id)]

/-- Modelled from the spec (§4.4): the broad strategy — any pool matching any
wide phrase yields true; no negative veto, no topical gate. -/
def detect_broad (page : List Char) (nodes : List Node) : Bool :=
  (broadPools page nodes).any fun pool => matches_any pool POSITIVE_WIDE

/-- Modelled from the spec (§4.4, §6): per-target strategy selection. -/
inductive Strategy
  | strict
  | broad

/-- Modelled from the spec: the classifier dispatches on the configured
strategy of the target. -/
def detect (strategy : Strategy) (page : List Char) (nodes : List Node) : Bool :=
  match strategy with
  | .strict => detect_in_stock nodes
  | .broad => detect_broad page nodes

/-! ## Claims -/

theorem post_discord_never_raises (d : DeliveryOutcome) :
    ∃ v, post_discord d = .ok v := by
  cases d with
  | delivered => exact ⟨none, rfl⟩
  | httpStatus code =>
    by_cases h : code ≥ 300 <;> simp [post_discord, h]
  | raised => exact ⟨_, rfl⟩

/-- C1: strict-strategy negative veto — a candidate node whose own-text +
attribute text matches a POSITIVE strict phrase and also any NEGATIVE phrase
yields `false` (it contributes no positive evidence). -/
theorem c1_negative_veto (n : Node)
    (hpos : (POSITIVE_STRICT.any fun p => reSearch p (combined n)) = true)
    (hneg : (NEGATIVE_HINTS.any fun p => reSearch p (combined n)) = true) :
    has_positive_in_context n = false := by
  unfold has_positive_in_context
  simp only [hpos, hneg, Bool.not_true, Bool.false_eq_true, if_false, if_true]

/-- A node advertising "Add to Cart" but also "Sold Out" in its own text. -/
def nodeC1 : Node :=
  { ownText := "Add to Cart - Sold Out".toList, ariaLabel := none, title := none,
    ancestorTexts := [some "Steam Deck Refurbished".toList] }

theorem c1_negative_veto_witness :
    (POSITIVE_STRICT.any fun p => reSearch p (combined nodeC1)) = true ∧
    (NEGATIVE_HINTS.any fun p => reSearch p (combined nodeC1)) = true ∧
    has_positive_in_context nodeC1 = false :=
  ⟨by decide, by decide, c1_negative_veto nodeC1 (by decide) (by decide)⟩

/-- C2: strict-strategy topical gate — a candidate node with a POSITIVE
strict phrase and no NEGATIVE phrase in its own-text + attribute text still
yields `false` when its context window (own text plus bounded ancestor texts)
does not look like a Steam Deck refurb card. -/
theorem c2_topical_gate (n : Node)
    (hpos : (POSITIVE_STRICT.any fun p => reSearch p (combined n)) = true)
    (hneg : (NEGATIVE_HINTS.any fun p => reSearch p (combined n)) = false)
    (hctx : context_looks_like_refurb (ctx n) = false) :
    has_positive_in_context n = false := by
  unfold has_positive_in_context
  simp only [hpos, hneg, hctx, Bool.not_true, Bool.false_eq_true, if_false]

/-- A buy button for some unrelated product: no refurb context. -/
def nodeC2 : Node :=
  { ownText := "Add to Cart".toList, ariaLabel := none, title := none,
    ancestorTexts := [some "Valve Index VR Kit".toList] }

theorem c2_topical_gate_witness :
    (POSITIVE_STRICT.any fun p => reSearch p (combined nodeC2)) = true ∧
    (NEGATIVE_HINTS.any fun p => reSearch p (combined nodeC2)) = false ∧
    context_looks_like_refurb (ctx nodeC2) = false ∧
    has_positive_in_context nodeC2 = false :=
  ⟨by decide, by decide, by decide,
    c2_topical_gate nodeC2 (by decide) (by decide) (by decide)⟩

/-- C10: the negative-phrase veto is evaluated only over the node's own text
and attribute values — a node that passes the positive and negative checks
there and whose context window looks topical yields `true`, regardless of any
negative phrase occurring only in ancestor text. -/
theorem c10_negative_scope (n : Node)
    (hpos : (POSITIVE_STRICT.any fun p => reSearch p (combined n)) = true)
    (hneg : (NEGATIVE_HINTS.any fun p => reSearch p (combined n)) = false)
    (hctx : context_looks_like_refurb (ctx n) = true) :
    has_positive_in_context n = true := by
  unfold has_positive_in_context
  simp only [hpos, hneg, hctx, Bool.not_true, Bool.false_eq_true, if_false]

/-- A clean buy button whose ancestor card says "Out of stock": the veto does
not look at ancestors, so the node still counts. -/
def nodeC10 : Node :=
  { ownText := "Add to Cart".toList, ariaLabel := none, title := none,
    ancestorTexts := [some "Steam Deck 64GB Certified Refurbished - Out of Stock".toList] }

theorem c10_negative_scope_witness :
    reSearch patOutOfStock (norm (ctx nodeC10)) = true ∧
    has_positive_in_context nodeC10 = true :=
  ⟨by decide, c10_negative_scope nodeC10 (by decide) (by decide) (by decide)⟩

/-- C8: the normalizer contract — `norm` collapses every whitespace run to a
single space, trims, and lower-cases (equivalently: it joins the lower-cased
words with single spaces); any whitespace in the output is a plain space; the
output neither starts nor ends with a space; every character is lower-cased;
`None`/empty input yields the empty string (totality is immediate, `norm`
being a Lean function); and `norm` is idempotent. -/
theorem c8_normalizer_contract (l : List Char) :
    norm l = joinWords (wordsOf l) ∧
    (∀ c ∈ norm l, pyIsSpace c = true → c = ' ') ∧
    (norm l).head? ≠ some ' ' ∧
    (norm l).getLast? ≠ some ' ' ∧
    (∀ c ∈ norm l, c.toLower = c) ∧
    normOpt none = [] ∧ normOpt (some []) = [] ∧
    norm (norm l) = norm l :=
  ⟨norm_eq_joinWords l, fun _ hc hws => norm_ws_only_space hc hws,
   norm_head_not_space l, norm_getLast_not_space l, fun _ hc => norm_lower hc,
   rfl, rfl, norm_idem l⟩

theorem c8_normalizer_contract_witness :
    norm " A \t b ".toList = joinWords (wordsOf " A \t b ".toList) ∧
    (∀ c ∈ norm " A \t b ".toList, pyIsSpace c = true → c = ' ') ∧
    (norm " A \t b ".toList).head? ≠ some ' ' ∧
    (norm " A \t b ".toList).getLast? ≠ some ' ' ∧
    (∀ c ∈ norm " A \t b ".toList, c.toLower = c) ∧
    normOpt none = [] ∧ normOpt (some []) = [] ∧
    norm (norm " A \t b ".toList) = norm " A \t b ".toList :=
  c8_normalizer_contract " A \t b ".toList

theorem hexDigit_is_hex : ∀ m, m < 16 →
    ((hexDigit m).isDigit || ('a' ≤ hexDigit m && hexDigit m ≤ 'f')) = true := by decide

theorem mem_wordHex {c : Char} {w : Nat} (hc : c ∈ wordHex w) :
    (c.isDigit || ('a' ≤ c && c ≤ 'f')) = true := by
  unfold wordHex at hc
  rw [List.mem_map] at hc
  obtain ⟨i, _, rfl⟩ := hc
  exact hexDigit_is_hex _ (Nat.mod_lt _ (by norm_num))

theorem sha256Hex_length (msg : List Nat) : (sha256Hex msg).length = 64 := by
  unfold sha256Hex sha256Words wordHex
  simp

theorem mem_sha256Hex {c : Char} {msg : List Nat} (hc : c ∈ sha256Hex msg) :
    (c.isDigit || ('a' ≤ c && c ≤ 'f')) = true := by
  unfold sha256Hex at hc
  rw [List.mem_flatten] at hc
  obtain ⟨ws, hws, hcw⟩ := hc
  rw [List.mem_map] at hws
  obtain ⟨w, _, rfl⟩ := hws
  exact mem_wordHex hcw

/-- C7: the fingerprint — two page texts that differ only in whitespace
run-lengths or letter case (same lower-cased word sequence) produce the same
token, because normalization precedes hashing; and every token is exactly 16
hexadecimal characters. -/
theorem c7_fingerprint (t1 t2 : List Char) (h : wordsOf t1 = wordsOf t2) :
    fingerprint t1 = fingerprint t2 ∧
    (fingerprint t1).length = 16 ∧
    ∀ c ∈ fingerprint t1, (c.isDigit || ('a' ≤ c && c ≤ 'f')) = true := by
  have hnorm : norm t1 = norm t2 := by
    rw [norm_eq_joinWords, norm_eq_joinWords, h]
  refine ⟨?_, ?_, ?_⟩
  · unfold fingerprint
    rw [hnorm]
  · unfold fingerprint
    rw [List.length_take, sha256Hex_length]
    rfl
  · intro c hc
    unfold fingerprint at hc
    exact mem_sha256Hex (List.mem_of_mem_take hc)

theorem c7_fingerprint_witness :
    wordsOf "Steam  DECK\n512GB".toList = wordsOf " steam deck 512gb".toList ∧
    fingerprint "Steam  DECK\n512GB".toList = fingerprint " steam deck 512gb".toList ∧
    (fingerprint "Steam  DECK\n512GB".toList).length = 16 ∧
    ∀ c ∈ fingerprint "Steam  DECK\n512GB".toList,
      (c.isDigit || ('a' ≤ c && c ≤ 'f')) = true :=
  ⟨by decide, c7_fingerprint "Steam  DECK\n512GB".toList " steam deck 512gb".toList (by decide)⟩

/-- C4: de-duplication — with a positive verdict, a run whose page
fingerprint equals the persisted `last_hash` notifies nothing and leaves the
state unchanged; consequently, of two consecutive runs over byte-identical
fetched content the second never notifies (it reproduces the first run's
state), so at most one notification is sent. -/
theorem c4_dedup (wb : List Char) (last : Option (List Char)) (page : PageData)
    (st : Nat) (d1 d2 : DeliveryOutcome)
    (hwb : wb ≠ []) (hst : ¬(400 ≤ st ∧ st < 600))
    (hdet : detect_in_stock page.nodes = true) :
    (some (fingerprint page.fullText) = last →
      mainRun wb last (.response st page) d1 = .ok ⟨false, last⟩) ∧
    ∀ r1, mainRun wb last (.response st page) d1 = .ok r1 →
      mainRun wb r1.state (.response st page) d2 = .ok ⟨false, r1.state⟩ ∧
        r1.state = some (fingerprint page.fullText) := by
  have hrs : raise_for_status st = .ok () := by
    unfold raise_for_status
    rw [if_neg hst]
  constructor
  · intro heq
    unfold mainRun
    rw [if_neg hwb]
    simp only [hrs, hdet, if_true]
    rw [if_neg (by simp [heq])]
  · intro r1 h1
    unfold mainRun at h1 ⊢
    rw [if_neg hwb] at h1 ⊢
    simp only [hrs, hdet, if_true] at h1 ⊢
    by_cases hne : some (fingerprint page.fullText) = last
    · rw [if_neg (by simp [hne])] at h1
      have hr1 : r1 = ⟨false, last⟩ := by
        cases h1
        rfl
      subst hr1
      refine ⟨?_, hne.symm ▸ rfl⟩
      rw [if_neg (by simp [hne])]
    · rw [if_pos (by simpa using hne)] at h1
      obtain ⟨v, hv⟩ := post_discord_never_raises d1
      rw [hv] at h1
      have hr1 : r1 = ⟨true, some (fingerprint page.fullText)⟩ := by
        cases h1
        rfl
      subst hr1
      refine ⟨?_, rfl⟩
      rw [if_neg (by simp)]

/-- A page whose single candidate is a qualifying refurb buy button. -/
def pageC4 : PageData :=
  { fullText := "Steam Deck 512GB Certified Refurbished Add to Cart".toList,
    nodes := [{ ownText := "Add to Cart".toList, ariaLabel := none, title := none,
                ancestorTexts := [some "Steam Deck 512GB Certified Refurbished".toList] }] }

theorem c4_dedup_witness :
    (some (fingerprint pageC4.fullText) = some (fingerprint pageC4.fullText) →
      mainRun "h".toList (some (fingerprint pageC4.fullText)) (.response 200 pageC4)
        .delivered = .ok ⟨false, some (fingerprint pageC4.fullText)⟩) ∧
    ∀ r1, mainRun "h".toList (some (fingerprint pageC4.fullText)) (.response 200 pageC4)
        .delivered = .ok r1 →
      mainRun "h".toList r1.state (.response 200 pageC4) .delivered =
          .ok ⟨false, r1.state⟩ ∧
        r1.state = some (fingerprint pageC4.fullText) :=
  c4_dedup "h".toList (some (fingerprint pageC4.fullText)) pageC4 200 .delivered .delivered
    (by decide) (by omega) (by decide)

/-- C5: state update does not depend on delivery — with a positive verdict and
a changed fingerprint, the run ends with the persisted state set to the new
fingerprint for *every* delivery outcome (success, HTTP error, exception),
and `post_discord` never raises. -/
theorem c5_state_update (wb : List Char) (last : Option (List Char)) (page : PageData)
    (st : Nat) (d : DeliveryOutcome)
    (hwb : wb ≠ []) (hst : ¬(400 ≤ st ∧ st < 600))
    (hdet : detect_in_stock page.nodes = true)
    (hne : some (fingerprint page.fullText) ≠ last) :
    mainRun wb last (.response st page) d =
        .ok ⟨true, some (fingerprint page.fullText)⟩ ∧
    ∃ v, post_discord d = .ok v := by
  have hrs : raise_for_status st = .ok () := by
    unfold raise_for_status
    rw [if_neg hst]
  obtain ⟨v, hv⟩ := post_discord_never_raises d
  refine ⟨?_, v, hv⟩
  unfold mainRun
  rw [if_neg hwb]
  simp only [hrs, hdet, if_true]
  rw [if_pos (by simpa using hne), hv]

theorem c5_state_update_witness :
    mainRun "h".toList none (.response 200 pageC4) .raised =
        .ok ⟨true, some (fingerprint pageC4.fullText)⟩ ∧
    ∃ v, post_discord .raised = .ok v :=
  c5_state_update "h".toList none pageC4 200 .raised
    (by decide) (by omega) (by decide) (by simp)

/-- C6 counterexample: a transport error in the fetch is *not* caught — the
run terminates with the uncaught exception instead of treating the target as
a non-match. -/
theorem c6_counterexample :
    mainRun "h".toList none .raised .delivered = .error "requests.get raised".toList ∧
    mainRun "h".toList none .raised .delivered ≠
      .ok { notified := false, state := none } := by
  constructor
  · rfl
  · intro hc
    exact Except.noConfusion hc

/-- C6 (amended): fetch failures are not caught by `main` — a transport error
from `requests.get`, or a 4xx/5xx status via `raise_for_status()`, propagates
out of `main` as an exception, aborting the run with no notification and no
state write. -/
theorem c6_fetch_failure_aborts (wb : List Char) (last : Option (List Char))
    (d : DeliveryOutcome) (st : Nat) (page : PageData)
    (hwb : wb ≠ []) (hst : 400 ≤ st ∧ st < 600) :
    mainRun wb last .raised d = .error "requests.get raised".toList ∧
    mainRun wb last (.response st page) d = .error "HTTPError".toList := by
  constructor
  · unfold mainRun
    rw [if_neg hwb]
  · unfold mainRun
    rw [if_neg hwb]
    have hrs : raise_for_status st = .error "HTTPError".toList := by
      unfold raise_for_status
      rw [if_pos hst]
    simp only [hrs]

theorem c6_fetch_failure_aborts_witness :
    mainRun "h".toList none .raised .delivered = .error "requests.get raised".toList ∧
    mainRun "h".toList none (.response 503 ⟨[], []⟩) .delivered =
      .error "HTTPError".toList :=
  c6_fetch_failure_aborts "h".toList none .delivered 503 ⟨[], []⟩ (by decide) (by omega)

theorem ctxWalk_eq (chain : List (Option (List Char))) (steps : Nat) :
    ctxWalk chain steps = (chain.take steps).filterMap id := by
  induction chain generalizing steps with
  | nil => cases steps <;> rfl
  | cons t rest ih =>
    cases steps with
    | zero => rfl
    | succ k =>
      cases t with
      | some txt => simp [ctxWalk, ih]
      | none => simp [ctxWalk, ih]

/-- C9 (amended): the gathered context of a node consists of its own text and
attribute values (in `combined`) plus the walked ancestor chunks (in `ctx`);
the walk collects the node's own text and the texts of up to **3** ancestors
(4 levels counting the node itself), stops early at the document root, and a
failed ancestor text extraction merely shortens the list. -/
theorem c9_context_extractor (n : Node) :
    ctxChunks n = n.ownText :: ((n.ancestorTexts.take 3).filterMap id) ∧
    (ctxChunks n).length ≤ 4 ∧
    combined n = joinWords (nodeTexts n) := by
  have h1 : ctxChunks n = n.ownText :: ((n.ancestorTexts.take 3).filterMap id) := by
    unfold ctxChunks
    rw [ctxWalk_eq]
    simp
  refine ⟨h1, ?_, rfl⟩
  rw [h1]
  have h2 : ((n.ancestorTexts.take 3).filterMap id).length ≤ 3 := by
    calc ((n.ancestorTexts.take 3).filterMap id).length
        ≤ (n.ancestorTexts.take 3).length := List.length_filterMap_le _ _
      _ ≤ 3 := by rw [List.length_take]; omega
  simp only [List.length_cons]
  omega

theorem c9_context_extractor_witness :
    ctxChunks
        { ownText := "x".toList, ariaLabel := none, title := none,
          ancestorTexts := [some "a1".toList, none, some "a3".toList, some "a4".toList] } =
      "x".toList :: (([some "a1".toList, none, some "a3".toList, some "a4".toList].take 3).filterMap id) ∧
    (ctxChunks
        { ownText := "x".toList, ariaLabel := none, title := none,
          ancestorTexts := [some "a1".toList, none, some "a3".toList, some "a4".toList] }).length ≤ 4 ∧
    combined
        { ownText := "x".toList, ariaLabel := none, title := none,
          ancestorTexts := [some "a1".toList, none, some "a3".toList, some "a4".toList] } =
      joinWords (nodeTexts
        { ownText := "x".toList, ariaLabel := none, title := none,
          ancestorTexts := [some "a1".toList, none, some "a3".toList, some "a4".toList] }) :=
  c9_context_extractor _

/-- Following the claim's words ("the rendered text of up to 4 ancestor
elements"), for comparison with the code's walk. -/
def claimedCtxChunks (n : Node) : List (List Char) :=
  n.ownText :: ((n.ancestorTexts.take 4).filterMap id)

/-- C9 counterexample: a node with four extractable ancestors.  The claim
says the context covers up to 4 ancestor texts, but the walk spends its first
of 4 steps on the node itself, so the fourth ancestor's text ("a4") appears
nowhere in the gathered context. -/
theorem c9_counterexample :
    ctxChunks
        { ownText := "x".toList, ariaLabel := none, title := none,
          ancestorTexts := [some "a1".toList, some "a2".toList, some "a3".toList,
            some "a4".toList] } ≠
      claimedCtxChunks
        { ownText := "x".toList, ariaLabel := none, title := none,
          ancestorTexts := [some "a1".toList, some "a2".toList, some "a3".toList,
            some "a4".toList] } ∧
    containsSub "a4".toList
        (ctx { ownText := "x".toList, ariaLabel := none, title := none,
               ancestorTexts := [some "a1".toList, some "a2".toList, some "a3".toList,
                 some "a4".toList] }) = false ∧
    containsSub "a4".toList
        (joinWords (claimedCtxChunks
          { ownText := "x".toList, ariaLabel := none, title := none,
            ancestorTexts := [some "a1".toList, some "a2".toList, some "a3".toList,
              some "a4".toList] })) = true := by
  refine ⟨by decide, by decide, by decide⟩

/-- C3: both strategies exist and are selectable per target; the broad
strategy returns `true` whenever any of its three text pools (whole-page
text, concatenated candidate own texts, concatenated accessibility-attribute
values) contains a wide-set phrase — with no negative-phrase veto and no
topical gate. -/
theorem c3_broad_strategy (strategy : Strategy) (page : List Char) (nodes : List Node)
    (hs : strategy = .broad)
    (h : ∃ pool ∈ broadPools page nodes, ∃ p ∈ POSITIVE_WIDE,
      reSearch p (norm pool) = true) :
    detect strategy page nodes = true := by
  subst hs
  show detect_broad page nodes = true
  unfold detect_broad matches_any
  rw [List.any_eq_true]
  obtain ⟨pool, hpool, p, hp, hsearch⟩ := h
  exact ⟨pool, hpool, by rw [List.any_eq_true]; exact ⟨p, hp, hsearch⟩⟩

theorem c3_broad_strategy_witness :
    (∃ pool ∈ broadPools "SOLD OUT - but you can still CHECKOUT a preorder".toList [],
      ∃ p ∈ POSITIVE_WIDE, reSearch p (norm pool) = true) ∧
    detect .broad "SOLD OUT - but you can still CHECKOUT a preorder".toList [] = true :=
  ⟨by decide,
    c3_broad_strategy .broad "SOLD OUT - but you can still CHECKOUT a preorder".toList []
      rfl (by decide)⟩
